import Mathlib

/-
  Verification of the ifql query engine core against its specification.

  Shallow embedding of the Go sources:
    src/functions/filter.go        (filter transformation and its push-down)
    src/functions/select.go        (select source procedure)
    src/ifql/eval.go               (AST evaluator producing a QuerySpec)
    src/unnamed/part_000           (storage reader, framed block iterator)
    src/unnamed/part_001           (max row selector)

  Go slices are modelled as immutable lists, Go int64 and uint64 as Int and
  Nat (only comparisons and copies occur in the audited code, never wrapping
  arithmetic), pointers as plain values with mutation made explicit, and
  fallible code as Except or Option.  Parts of the repository that are not
  under src (the physical planner, the execute expression compiler) are
  modelled from the spec; each such definition carries a doc comment starting
  with: Modelled from the spec.
-/

namespace IFQL

/-- Nanosecond timestamps (execute.Time, a 64-bit instant). -/
abbrev Time := Int

section MaxSelector

/-!
## Max row selector (src/unnamed/part_001)

The typed Do functions scan the value slice of one block keeping the running
maximum and the index of the row that last updated it, then capture that row
via selectRow.  The row reader is modelled by the list of rows of the block.
-/

/-- One row as read by ReadRow for an integer value column: the time column
value and the int64 value column value. -/
structure IntRow where
  time : Time
  value : Int
deriving Repr, DecidableEq

/-- State of a MaxIntSelector: the embedded MaxSelector fields (set, rows)
plus the running max.  rows is the single captured row of selectRow, if any. -/
structure MaxIntState where
  set : Bool
  max : Int
  rows : Option IntRow
deriving Repr, DecidableEq

/-- The loop body of MaxIntSelector.DoInt: for i, v in vs, if !s.set or
v > s.max then set, update max and remember i as maxIdx.  The index
accumulator starts at -1 exactly as in the source. -/
def doIntGo : List Int → Nat → Bool → Int → Int → Bool × Int × Int
  | [], _, setF, mx, idx => (setF, mx, idx)
  | v :: rest, i, setF, mx, idx =>
    if !setF || v > mx then doIntGo rest (i + 1) true v (Int.ofNat i)
    else doIntGo rest (i + 1) setF mx idx

/-- MaxSelector.selectRow: when the scan produced an index (idx is not -1),
capture that row of the block through the row reader. -/
def selectRow (s : MaxIntState) (idx : Int) (block : List IntRow) : MaxIntState :=
  if 0 ≤ idx then { s with rows := block.get? idx.toNat } else s

/-- MaxIntSelector.DoInt: scan the value column of the block, then selectRow.
The value slice vs is the value column of the block. -/
def MaxIntSelector.DoInt (s : MaxIntState) (block : List IntRow) : MaxIntState :=
  let r := doIntGo (block.map IntRow.value) 0 s.set s.max (-1)
  selectRow { s with set := r.1, max := r.2.1 } r.2.2 block

/-- Maximum of a starting value and a list, folded left as the scan does. -/
def listMax : Int → List Int → Int
  | m, [] => m
  | m, v :: rest => listMax (max m v) rest

/-- The maximum of a nonempty list (head seeded, as the unset scan does). -/
def listMax0 : List Int → Int
  | [] => 0
  | v :: rest => listMax v rest

theorem listMax_le (m : Int) (vs : List Int) : m ≤ listMax m vs := by
  induction vs generalizing m with
  | nil => exact le_refl m
  | cons v rest ih => exact le_trans (le_max_left m v) (ih (max m v))

theorem listMax_mono (vs : List Int) {m₁ m₂ : Int} (h : m₁ ≤ m₂) :
    listMax m₁ vs ≤ listMax m₂ vs := by
  induction vs generalizing m₁ m₂ with
  | nil => exact h
  | cons v rest ih => exact ih (max_le_max h (le_refl v))

/-- Characterization of the set branch of the scan: either no value exceeds
the running max and nothing changes, or the scan ends on the overall maximum
with the index of the first value attaining it. -/
theorem doIntGo_set_spec (vs : List Int) (i : Nat) (m : Int) (idx : Int) :
    doIntGo vs i true m idx =
      if listMax m vs = m then (true, m, idx)
      else (true, listMax m vs,
        Int.ofNat (i + vs.findIdx (fun v => v = listMax m vs))) := by
  induction vs generalizing i m idx with
  | nil => simp [doIntGo, listMax]
  | cons v rest ih =>
    have hcons : listMax m (v :: rest) = listMax (max m v) rest := rfl
    by_cases hv : v > m
    · have hmv : max m v = v := max_eq_right (le_of_lt hv)
      have hM : listMax m (v :: rest) = listMax v rest := by rw [hcons, hmv]
      have hne : listMax m (v :: rest) ≠ m := by
        rw [hM]
        exact ne_of_gt (lt_of_lt_of_le hv (listMax_le v rest))
      have hstep : doIntGo (v :: rest) i true m idx =
          doIntGo rest (i + 1) true v (Int.ofNat i) := by
        simp [doIntGo, hv]
      rw [hstep, ih, if_neg hne, hM]
      by_cases hall : listMax v rest = v
      · rw [if_pos hall, hall]
        have hfind : (v :: rest).findIdx (fun w => w = v) = 0 := by
          simp [List.findIdx_cons]
        rw [hfind]
        simp
      · rw [if_neg hall]
        have hdec : (decide (v = listMax v rest)) = false :=
          decide_eq_false (fun h => hall h.symm)
        have hfind : (v :: rest).findIdx (fun w => w = listMax v rest) =
            rest.findIdx (fun w => w = listMax v rest) + 1 := by
          rw [List.findIdx_cons, hdec]
          rfl
        rw [hfind]
        have harith : i + 1 + rest.findIdx (fun w => w = listMax v rest) =
            i + (rest.findIdx (fun w => w = listMax v rest) + 1) := by omega
        rw [harith]
    · have hmv : max m v = m := max_eq_left (le_of_not_lt hv)
      have hM : listMax m (v :: rest) = listMax m rest := by rw [hcons, hmv]
      have hstep : doIntGo (v :: rest) i true m idx =
          doIntGo rest (i + 1) true m idx := by
        simp [doIntGo, hv]
      rw [hstep, ih, hM]
      by_cases hall : listMax m rest = m
      · simp [hall]
      · have hvne : v ≠ listMax m rest := by
          intro h
          have h2 : ¬ m < listMax m rest := by
            intro hlt
            rw [← h] at hlt
            exact hv hlt
          exact hall (le_antisymm (le_of_not_lt h2) (listMax_le m rest))
        have hdec : (decide (v = listMax m rest)) = false := decide_eq_false hvne
        have hfind : (v :: rest).findIdx (fun w => w = listMax m rest) =
            rest.findIdx (fun w => w = listMax m rest) + 1 := by
          rw [List.findIdx_cons, hdec]
          rfl
        rw [if_neg hall, if_neg hall, hfind]
        have harith : i + 1 + rest.findIdx (fun w => w = listMax m rest) =
            i + (rest.findIdx (fun w => w = listMax m rest) + 1) := by omega
        rw [harith]

/-- The scan with an unset state immediately sets on the first element. -/
theorem doIntGo_unset_cons (v : Int) (rest : List Int) (i : Nat) (m idx : Int) :
    doIntGo (v :: rest) i false m idx = doIntGo rest (i + 1) true v (Int.ofNat i) := by
  simp [doIntGo]

/-- C2 (corrected): for every block processed by the max selector typed DoInt,
the running max becomes the maximum value seen so far, but ties for the
maximum are broken by the earliest time, not the latest: only a strictly
greater value updates the selection, so the first tying row of the block is
the one selected, and a block that does not strictly exceed an already set
running max leaves the captured row unchanged. -/
theorem maxSelector_ties_first (s : MaxIntState) (block : List IntRow)
    (hne : block ≠ []) :
    ((MaxIntSelector.DoInt s block).set = true) ∧
    ((MaxIntSelector.DoInt s block).max =
      (if s.set then listMax s.max (block.map IntRow.value)
       else listMax0 (block.map IntRow.value))) ∧
    (s.set = true → listMax s.max (block.map IntRow.value) = s.max →
      (MaxIntSelector.DoInt s block).rows = s.rows) ∧
    ((s.set = false ∨ listMax s.max (block.map IntRow.value) ≠ s.max) →
      (MaxIntSelector.DoInt s block).rows =
        block.get? ((block.map IntRow.value).findIdx
          (fun v => v = (if s.set then listMax s.max (block.map IntRow.value)
            else listMax0 (block.map IntRow.value))))) := by
  cases block with
  | nil => exact absurd rfl hne
  | cons b bs =>
    have hmap : (b :: bs).map IntRow.value = b.value :: bs.map IntRow.value := rfl
    rw [hmap]
    cases hset : s.set with
    | true =>
      have hgo := doIntGo_set_spec (b.value :: bs.map IntRow.value) 0 s.max (-1)
      by_cases hall : listMax s.max (b.value :: bs.map IntRow.value) = s.max
      · rw [if_pos hall] at hgo
        have hDo : MaxIntSelector.DoInt s (b :: bs) =
            { s with set := true, max := s.max } := by
          unfold MaxIntSelector.DoInt
          rw [hmap, hset, hgo]
          simp [selectRow]
        refine ⟨by rw [hDo], ?_, ?_, ?_⟩
        · rw [hDo]
          simpa using hall.symm
        · intro _ _
          rw [hDo]
        · intro hc
          rcases hc with hc | hc
          · simp [hset] at hc
          · exact absurd hall hc
      · rw [if_neg hall] at hgo
        have hDo : MaxIntSelector.DoInt s (b :: bs) =
            { s with set := true,
                     max := listMax s.max (b.value :: bs.map IntRow.value),
                     rows := (b :: bs).get? ((b.value :: bs.map IntRow.value).findIdx
                       (fun v => v = listMax s.max (b.value :: bs.map IntRow.value))) } := by
          unfold MaxIntSelector.DoInt
          rw [hmap, hset, hgo]
          simp [selectRow]
        refine ⟨by rw [hDo], ?_, ?_, ?_⟩
        · rw [hDo]
          simp
        · intro _ h
          exact absurd h hall
        · intro _
          rw [hDo]
          simp
    | false =>
      have hgo0 : doIntGo ((b :: bs).map IntRow.value) 0 false s.max (-1) =
          doIntGo (bs.map IntRow.value) 1 true b.value (Int.ofNat 0) := by
        simp [doIntGo]
      have hgo := doIntGo_set_spec (bs.map IntRow.value) 1 b.value (Int.ofNat 0)
      by_cases hall : listMax b.value (bs.map IntRow.value) = b.value
      · rw [if_pos hall] at hgo
        have hM : listMax0 (b.value :: bs.map IntRow.value) = b.value := by
          rw [listMax0, hall]
        have hDo : MaxIntSelector.DoInt s (b :: bs) =
            { s with set := true, max := b.value, rows := (b :: bs).get? 0 } := by
          unfold MaxIntSelector.DoInt
          rw [hset, hgo0, hgo]
          simp [selectRow]
        refine ⟨by rw [hDo], ?_, ?_, ?_⟩
        · rw [hDo]
          simpa using hM.symm
        · intro h _
          simp at h
        · intro _
          rw [hDo]
          have hfind : ((b.value :: bs.map IntRow.value)).findIdx
              (fun v => v = listMax0 (b.value :: bs.map IntRow.value)) = 0 := by
            rw [hM]
            simp [List.findIdx_cons]
          simp only [Bool.false_eq_true, if_false, hfind]
      · rw [if_neg hall] at hgo
        have hM : listMax0 (b.value :: bs.map IntRow.value) =
            listMax b.value (bs.map IntRow.value) := rfl
        have hdec : (decide (b.value = listMax b.value (bs.map IntRow.value))) = false :=
          decide_eq_false (fun h => hall h.symm)
        have hfind : (b.value :: bs.map IntRow.value).findIdx
            (fun v => v = listMax b.value (bs.map IntRow.value)) =
            (bs.map IntRow.value).findIdx
              (fun v => v = listMax b.value (bs.map IntRow.value)) + 1 := by
          rw [List.findIdx_cons, hdec]
          rfl
        have hDo : MaxIntSelector.DoInt s (b :: bs) =
            { s with set := true,
                     max := listMax b.value (bs.map IntRow.value),
                     rows := (b :: bs).get? (1 + (bs.map IntRow.value).findIdx
                       (fun v => v = listMax b.value (bs.map IntRow.value))) } := by
          unfold MaxIntSelector.DoInt
          rw [hset, hgo0, hgo]
          simp [selectRow]
          have hto : ((1 : Int) + ((bs.map IntRow.value).findIdx
              (fun v => v = listMax b.value (bs.map IntRow.value)) : Int)).toNat =
              1 + (bs.map IntRow.value).findIdx
                (fun v => v = listMax b.value (bs.map IntRow.value)) := by omega
          rw [if_pos (by positivity), hto]
        refine ⟨by rw [hDo], ?_, ?_, ?_⟩
        · rw [hDo]
          simp [hM]
        · intro h _
          simp at h
        · intro _
          rw [hDo]
          simp only [Bool.false_eq_true, if_false, hM, hfind]
          rw [Nat.add_comm]

/-- C2 witness: applying the theorem to a fresh selector and a concrete
two-row block with tied maxima. -/
theorem maxSelector_ties_first_witness :
    (MaxIntSelector.DoInt ⟨false, 0, none⟩ [⟨1, 5⟩, ⟨2, 5⟩]).set = true :=
  (maxSelector_ties_first ⟨false, 0, none⟩ [⟨1, 5⟩, ⟨2, 5⟩] (by decide)).1

/-- C2 counterexample: rows at times 1 and 2 both hold the maximum value 5;
the claim as stated selects the last tying row (time 2), but DoInt selects
the first one (time 1), because only a strictly greater value updates the
selection. -/
theorem maxSelector_ties_last_counterexample :
    (MaxIntSelector.DoInt ⟨false, 0, none⟩ [⟨1, 5⟩, ⟨2, 5⟩]).rows = some ⟨1, 5⟩ ∧
    (MaxIntSelector.DoInt ⟨false, 0, none⟩ [⟨1, 5⟩, ⟨2, 5⟩]).rows ≠ some ⟨2, 5⟩ := by
  decide

end MaxSelector

section StorageReader

/-!
## Storage reader (src/unnamed/part_000)

storageReader.Read builds a storage.ReadRequest from the ReadSpec and the
start and stop times, opens the stream, and returns a block iterator bound to
those times.  The RPC connection and stream are external; the embedding
captures the request that is sent and the iterator that is returned on the
success path.  The wire predicate is uninterpreted data passed through.
-/

/-- The storage predicate is pass-through wire data for this code. -/
abbrev Predicate := String

/-- execute.ReadSpec: the read parameters handed to StorageReader.Read. -/
structure ReadSpec where
  database : String
  predicate : Option Predicate
  limit : Int
  descending : Bool
deriving Repr, DecidableEq

/-- storage.ReadRequest as filled in by storageReader.Read.  rangeStart and
rangeEnd are the TimestampRange Start and End fields.  A fresh Go value has
all fields at their zero values; limit starts at 0. -/
structure ReadRequest where
  database : String
  predicate : Option Predicate
  limit : Int
  descending : Bool
  rangeStart : Int
  rangeEnd : Int
deriving Repr, DecidableEq

/-- execute.Bounds: the half-open time window of a block iterator. -/
structure Bounds where
  start : Time
  stop : Time
deriving Repr, DecidableEq

/-- The request storageReader.Read sends: Database, Predicate and Descending
are copied from the spec and TimestampRange is (start, stop).  The line
req.Limit = limit is commented out in the source, so Limit keeps the zero
value of the fresh request. -/
def readRequestOf (readSpec : ReadSpec) (start stop : Time) : ReadRequest :=
  { database := readSpec.database
    predicate := readSpec.predicate
    limit := 0
    descending := readSpec.descending
    rangeStart := start
    rangeEnd := stop }

/-- storageReader.Read on the success path: the request sent over the stream
and the bounds of the storageBlockIterator that is returned. -/
def storageReaderRead (readSpec : ReadSpec) (start stop : Time) :
    ReadRequest × Bounds :=
  (readRequestOf readSpec start stop, { start := start, stop := stop })

/-- C6 (amended): storageReader.Read sends a ReadRequest whose Database,
Predicate and Descending fields equal the corresponding spec fields and whose
TimestampRange is (start, stop), but the Limit field is left at its zero
value (the assignment is commented out in the source); the returned block
iterator is bound to (start, stop). -/
theorem storageReaderRead_request (readSpec : ReadSpec) (start stop : Time) :
    (storageReaderRead readSpec start stop).1.database = readSpec.database ∧
    (storageReaderRead readSpec start stop).1.predicate = readSpec.predicate ∧
    (storageReaderRead readSpec start stop).1.descending = readSpec.descending ∧
    (storageReaderRead readSpec start stop).1.rangeStart = start ∧
    (storageReaderRead readSpec start stop).1.rangeEnd = stop ∧
    (storageReaderRead readSpec start stop).1.limit = 0 ∧
    (storageReaderRead readSpec start stop).2 = { start := start, stop := stop } :=
  ⟨rfl, rfl, rfl, rfl, rfl, rfl, rfl⟩

/-- C6 counterexample: with a spec whose Limit is 5, the request sent carries
Limit 0, so the claimed equality of the Limit fields fails. -/
theorem storageReaderRead_limit_counterexample :
    (storageReaderRead ⟨"mydb", none, 5, false⟩ 0 10).1.limit ≠ 5 := by
  decide

end StorageReader

section BlockIterator

/-!
## Framed block iterator (src/unnamed/part_000)

readState wraps the RPC stream: peek classifies the head frame of the current
ReadResponse, more refills the frame buffer from the stream, next pops a
frame.  storageBlockIterator.Do walks series frames into blocks; the value
iterator consumes the point frames of a block through advance.  The stream is
modelled as the list of outcomes RecvMsg will produce; a Go panic is
modelled as none.
-/

/-- IEEE float64 payload of a floatPoints frame, carried by its bit pattern
(the iterator only copies these values, never computes with them). -/
structure Float64 where
  bits : Nat
deriving Repr, DecidableEq

/-- One wire frame of a ReadResponse, as consumed: the six frame kinds the
storage RPC carries (series, integerPoints, floatPoints, stringPoints,
booleanPoints, unsignedPoints). -/
inductive Frame where
  | series (tags : List (String × String))
  | integerPoints (timestamps : List Int) (values : List Int)
  | floatPoints (timestamps : List Int) (values : List Float64)
  | stringPoints (timestamps : List Int) (values : List String)
  | booleanPoints (timestamps : List Int) (values : List Bool)
  | unsignedPoints (timestamps : List Int) (values : List Nat)
deriving Repr, DecidableEq

/-- responseType: the classification produced by readState.peek. -/
inductive ResponseType where
  | seriesType
  | integerPointsType
  | floatPointsType
deriving Repr, DecidableEq

/-- readState.peek on a frame: GetSeries, GetIntegerPoints and
GetFloatPoints are tried in order; every other frame falls into the final
branch, which panics with: read response frame should have one of series,
integerPoints, or floatPoints.  The panic is modelled as none. -/
def framePeek : Frame → Option ResponseType
  | .series _ => some .seriesType
  | .integerPoints _ _ => some .integerPointsType
  | .floatPoints _ _ => some .floatPointsType
  | _ => none

/-- One outcome of stream.RecvMsg: a ReadResponse carrying frames, a clean
end of stream (io.EOF), or any other transport error. -/
inductive RecvResult where
  | ok (frames : List Frame)
  | eof
  | err (e : String)
deriving Repr, DecidableEq

/-- readState: the frame buffer of the current ReadResponse plus the
remaining stream, as the list of outcomes RecvMsg will produce. -/
structure ReadState where
  buffer : List Frame
  recvs : List RecvResult
deriving Repr, DecidableEq

/-- readState.more: frames left in the buffer keep iterating; otherwise one
RecvMsg is performed.  io.EOF ends the iteration; any other receive error
ALSO just ends the iteration (the source carries only a TODO for proper
error handling there); a received response becomes the new buffer.  RecvMsg
on an exhausted stream is a clean EOF. -/
def ReadState.more : ReadState → Bool × ReadState
  | ⟨f :: rest, recvs⟩ => (true, ⟨f :: rest, recvs⟩)
  | ⟨[], []⟩ => (false, ⟨[], []⟩)
  | ⟨[], .eof :: r⟩ => (false, ⟨[], r⟩)
  | ⟨[], .err _ :: r⟩ => (false, ⟨[], r⟩)
  | ⟨[], .ok fs :: r⟩ => (true, ⟨fs, r⟩)

/-- The reusable typed buffers one advance fills: the time buffer plus the
int64 or float64 value buffer. -/
inductive ColBufs where
  | ints (times : List Time) (values : List Int)
  | floats (times : List Time) (values : List Float64)
deriving Repr, DecidableEq

/-- storageBlockValueIterator.advance: one more() step, then dispatch on
peek.  none models a panic (peek on a frame outside its three handled kinds,
or indexing Frames[0] of an empty response); some (none, st) models advance
returning false (a series frame was seen and left unconsumed, or the stream
ended); some (some bufs, st) models advance returning true with the buffers
filled from the consumed points frame. -/
def advance (st : ReadState) : Option (Option ColBufs × ReadState) :=
  match st.more with
  | (false, st1) => some (none, st1)
  | (true, st1) =>
    match st1.buffer with
    | [] => none
    | f :: rest =>
      match framePeek f, f with
      | none, _ => none
      | some .seriesType, _ => some (none, st1)
      | some .integerPointsType, .integerPoints ts vs =>
        some (some (.ints ts vs), ⟨rest, st1.recvs⟩)
      | some .floatPointsType, .floatPoints ts vs =>
        some (some (.floats ts vs), ⟨rest, st1.recvs⟩)
      | some _, _ => none

/-- Size of one pending receive outcome, counting its frames. -/
def recvSize : RecvResult → Nat
  | .ok fs => fs.length + 1
  | .eof => 1
  | .err _ => 1

/-- Total number of pending frames and stream events of a read state. -/
def ReadState.size (st : ReadState) : Nat :=
  st.buffer.length + (st.recvs.map recvSize).sum

theorem more_size_le (st : ReadState) : (ReadState.more st).2.size ≤ st.size := by
  rcases st with ⟨buffer, recvs⟩
  cases buffer with
  | cons f rest => simp [ReadState.more]
  | nil =>
    cases recvs with
    | nil => simp [ReadState.more]
    | cons r rs =>
      cases r with
      | ok fs => simp [ReadState.more, ReadState.size, recvSize]
      | eof => simp [ReadState.more, ReadState.size, recvSize]
      | err e => simp [ReadState.more, ReadState.size, recvSize]

theorem advance_frame_size_lt {st st2 : ReadState} {bufs : ColBufs}
    (h : advance st = some (some bufs, st2)) : st2.size < st.size := by
  rcases st with ⟨buffer, recvs⟩
  cases buffer with
  | cons f rest =>
    cases f with
    | series tags => simp [advance, ReadState.more, framePeek] at h
    | integerPoints ts vs =>
      simp [advance, ReadState.more, framePeek] at h
      obtain ⟨-, h2⟩ := h
      subst h2
      simp [ReadState.size]
    | floatPoints ts vs =>
      simp [advance, ReadState.more, framePeek] at h
      obtain ⟨-, h2⟩ := h
      subst h2
      simp [ReadState.size]
    | stringPoints ts vs => simp [advance, ReadState.more, framePeek] at h
    | booleanPoints ts vs => simp [advance, ReadState.more, framePeek] at h
    | unsignedPoints ts vs => simp [advance, ReadState.more, framePeek] at h
  | nil =>
    cases recvs with
    | nil => simp [advance, ReadState.more] at h
    | cons r rs =>
      cases r with
      | eof => simp [advance, ReadState.more] at h
      | err e => simp [advance, ReadState.more] at h
      | ok fs =>
        cases fs with
        | nil => simp [advance, ReadState.more] at h
        | cons f frest =>
          cases f with
          | series tags => simp [advance, ReadState.more, framePeek] at h
          | integerPoints ts vs =>
            simp [advance, ReadState.more, framePeek] at h
            obtain ⟨-, h2⟩ := h
            subst h2
            simp [ReadState.size, recvSize]
            omega
          | floatPoints ts vs =>
            simp [advance, ReadState.more, framePeek] at h
            obtain ⟨-, h2⟩ := h
            subst h2
            simp [ReadState.size, recvSize]
            omega
          | stringPoints ts vs => simp [advance, ReadState.more, framePeek] at h
          | booleanPoints ts vs => simp [advance, ReadState.more, framePeek] at h
          | unsignedPoints ts vs => simp [advance, ReadState.more, framePeek] at h

theorem advance_stop_size_le {st st1 : ReadState}
    (h : advance st = some (none, st1)) : st1.size ≤ st.size := by
  rcases st with ⟨buffer, recvs⟩
  cases buffer with
  | cons f rest =>
    cases f with
    | series tags =>
      simp [advance, ReadState.more, framePeek] at h
      subst h
      exact le_refl _
    | integerPoints ts vs => simp [advance, ReadState.more, framePeek] at h
    | floatPoints ts vs => simp [advance, ReadState.more, framePeek] at h
    | stringPoints ts vs => simp [advance, ReadState.more, framePeek] at h
    | booleanPoints ts vs => simp [advance, ReadState.more, framePeek] at h
    | unsignedPoints ts vs => simp [advance, ReadState.more, framePeek] at h
  | nil =>
    cases recvs with
    | nil =>
      simp [advance, ReadState.more] at h
      subst h
      exact le_refl _
    | cons r rs =>
      cases r with
      | eof =>
        simp [advance, ReadState.more] at h
        subst h
        simp [ReadState.size, recvSize]
      | err e =>
        simp [advance, ReadState.more] at h
        subst h
        simp [ReadState.size, recvSize]
      | ok fs =>
        cases fs with
        | nil => simp [advance, ReadState.more] at h
        | cons f frest =>
          cases f with
          | series tags =>
            simp [advance, ReadState.more, framePeek] at h
            subst h
            simp [ReadState.size, recvSize]
          | integerPoints ts vs => simp [advance, ReadState.more, framePeek] at h
          | floatPoints ts vs => simp [advance, ReadState.more, framePeek] at h
          | stringPoints ts vs => simp [advance, ReadState.more, framePeek] at h
          | booleanPoints ts vs => simp [advance, ReadState.more, framePeek] at h
          | unsignedPoints ts vs => simp [advance, ReadState.more, framePeek] at h

/-- The value iterator loop of a block: DoInt and DoFloat call advance until
it returns false, handing each filled buffer to the callback, then signal
done.  The state after the loop is returned; none models a panic. -/
def drainBlock (st : ReadState) : Option ReadState :=
  match h : advance st with
  | none => none
  | some (none, st1) => some st1
  | some (some _, st1) => drainBlock st1
termination_by st.size
decreasing_by exact advance_frame_size_lt h

theorem drainBlock_size_le_aux : ∀ (n : Nat), ∀ st : ReadState, st.size = n →
    ∀ st2, drainBlock st = some st2 → st2.size ≤ st.size := by
  intro n
  induction n using Nat.strong_induction_on with
  | _ n ih =>
    intro st hsize st2 hdrain
    rw [drainBlock.eq_def] at hdrain
    split at hdrain
    · simp at hdrain
    · next st1 heq =>
        simp at hdrain
        subst hdrain
        exact advance_stop_size_le heq
    · next cb st1 heq =>
        have hlt : st1.size < st.size := advance_frame_size_lt heq
        have hrec := ih st1.size (by omega) st1 rfl st2 hdrain
        omega

theorem drainBlock_size_le (st st2 : ReadState) (h : drainBlock st = some st2) :
    st2.size ≤ st.size :=
  drainBlock_size_le_aux st.size st rfl st2 h

/-- storageBlockIterator.Do, with the downstream consumer reading each block
through its value iterator until done, as the engine does.  For each series
frame a block is created and handed to f (collected here as the tag list of
the block); Do then waits on done and continues.  The Do signature offers no
error output: the returned list of blocks is everything the consumer ever
sees.  none models a stuck iteration: a panic inside peek, or the continue
branch re-peeking a points frame that never starts a block. -/
def doBlocks (st : ReadState) : Option (List (List (String × String))) :=
  match hm : st.more with
  | (false, _) => some []
  | (true, st1) =>
    match hb : st1.buffer with
    | [] => none
    | .series tags :: rest =>
      match hd : drainBlock ⟨rest, st1.recvs⟩ with
      | none => none
      | some st2 => (doBlocks st2).map (fun bs => tags :: bs)
    | _ :: _ => none
termination_by st.size
decreasing_by
  have h1 := more_size_le st
  rw [hm] at h1
  have h2 := drainBlock_size_le _ _ hd
  have h3 : ReadState.size ⟨rest, st1.recvs⟩ < st1.size := by
    simp [ReadState.size, hb]
  simp only [ReadState.size] at h1 h2 h3 ⊢
  omega

/-- C3 (amended): a receive failure of any kind ends the iteration silently:
readState.more returns false both on clean end of stream (io.EOF) and on any
other transport error (the code only carries a TODO for proper error
handling there), and Do — whose signature has no error output at all —
yields exactly the same block sequence in both cases; no error is reported
anywhere. -/
theorem recv_error_collapsed_with_eof (e : String) (rest : List RecvResult) :
    ReadState.more ⟨[], .err e :: rest⟩ = (false, ⟨[], rest⟩) ∧
    ReadState.more ⟨[], .eof :: rest⟩ = (false, ⟨[], rest⟩) ∧
    doBlocks ⟨[], .err e :: rest⟩ = some [] ∧
    doBlocks ⟨[], .eof :: rest⟩ = some [] := by
  refine ⟨rfl, rfl, ?_, ?_⟩ <;>
    · rw [doBlocks.eq_def]
      rfl

/-- C3 counterexample: a concrete stream that fails with a transport error
produces output indistinguishable from a clean end of stream — no blocks and
no reported error — so the error is not reported to any error channel. -/
theorem transport_error_not_reported_counterexample :
    doBlocks ⟨[], [.err "connection reset"]⟩ = doBlocks ⟨[], [.eof]⟩ ∧
    doBlocks ⟨[], [.err "connection reset"]⟩ = some [] := by
  constructor <;>
    · rw [doBlocks.eq_def]
      try rw [doBlocks.eq_def]
      rfl

/-- The three frame kinds readState.peek actually classifies. -/
def goodFrame : Frame → Bool
  | .series _ => true
  | .integerPoints _ _ => true
  | .floatPoints _ _ => true
  | _ => false

/-- A stream event whose frames the iterator can classify: a nonempty
response all of whose frames are classified, or an end of stream or error. -/
def goodRecv : RecvResult → Bool
  | .ok fs => !fs.isEmpty && fs.all goodFrame
  | .eof => true
  | .err _ => true

/-- A read state whose pending frames are all classified. -/
def goodState (st : ReadState) : Bool :=
  st.buffer.all goodFrame && st.recvs.all goodRecv

/-- C4 (corrected): peek classifies exactly series, integerPoints and
floatPoints frames; each of the other three documented wire frame kinds
(stringPoints, booleanPoints, unsignedPoints) reaches the panic branch.  The
panic branch is unreachable only under the stronger precondition that every
frame on the stream is one of the three classified kinds (with nonempty
responses): then advance never panics. -/
theorem framePeek_advance_panic_free (f : Frame) (st : ReadState)
    (hgood : goodState st = true) :
    (goodFrame f = true → framePeek f ≠ none) ∧
    (goodFrame f = false → framePeek f = none) ∧
    advance st ≠ none := by
  refine ⟨?_, ?_, ?_⟩
  · intro hf
    cases f with
    | series tags => simp [framePeek]
    | integerPoints ts vs => simp [framePeek]
    | floatPoints ts vs => simp [framePeek]
    | stringPoints ts vs => simp [goodFrame] at hf
    | booleanPoints ts vs => simp [goodFrame] at hf
    | unsignedPoints ts vs => simp [goodFrame] at hf
  · intro hf
    cases f with
    | series tags => simp [goodFrame] at hf
    | integerPoints ts vs => simp [goodFrame] at hf
    | floatPoints ts vs => simp [goodFrame] at hf
    | stringPoints ts vs => rfl
    | booleanPoints ts vs => rfl
    | unsignedPoints ts vs => rfl
  · rcases st with ⟨buffer, recvs⟩
    simp [goodState] at hgood
    obtain ⟨hbuf, hrecv⟩ := hgood
    cases buffer with
    | cons f1 rest =>
      have hf1 := hbuf f1 (List.mem_cons_self f1 rest)
      cases f1 <;> simp [advance, ReadState.more, framePeek] <;>
        simp [goodFrame] at hf1
    | nil =>
      cases recvs with
      | nil => simp [advance, ReadState.more]
      | cons r rs =>
        cases r with
        | eof => simp [advance, ReadState.more]
        | err e => simp [advance, ReadState.more]
        | ok fs =>
          have hr := hrecv (.ok fs) (List.mem_cons_self _ _)
          simp [goodRecv] at hr
          obtain ⟨hne, hall⟩ := hr
          cases fs with
          | nil => simp at hne
          | cons f1 frest =>
            have hf1 := hall f1 (List.mem_cons_self f1 frest)
            cases f1 <;> simp [advance, ReadState.more, framePeek] <;>
              simp [goodFrame] at hf1

/-- C4 witness: the theorem applied to a series frame and a one-block
stream of classified frames. -/
theorem framePeek_advance_panic_free_witness :
    advance ⟨[Frame.series []], [RecvResult.eof]⟩ ≠ none :=
  (framePeek_advance_panic_free (Frame.series [])
    ⟨[Frame.series []], [RecvResult.eof]⟩ (by decide)).2.2

/-- C4 counterexample: a stringPoints frame belongs to the documented six
wire frame kinds, yet peek lands in its panic branch on it, and so does the
value iterator advancing over it. -/
theorem framePeek_stringPoints_counterexample :
    framePeek (Frame.stringPoints [] []) = none ∧
    advance ⟨[Frame.stringPoints [] []], []⟩ = none :=
  ⟨rfl, rfl⟩

end BlockIterator

section FilterTransformation

/-!
## Filter transformation (src/functions/filter.go)

NewFilterTransformation pre-compiles the arrow function once per value data
type and stores each outcome (compiled expression or error); Process selects
the outcome for the value column's type, returns the stored error as a fatal
error, and otherwise appends the rows passing the predicate to the builder.
execute.CompileExpression lives in the execute package, which is not under
src; the compile function is therefore a parameter describing it.
-/

/-- execute.DataType: the column data types of the engine. -/
inductive DataType where
  | TBool
  | TInt
  | TUInt
  | TFloat
  | TString
  | TTime
deriving Repr, DecidableEq

/-- Printed name of a data type, as used inside error messages. -/
def DataType.name : DataType → String
  | .TBool => "bool"
  | .TInt => "int"
  | .TUInt => "uint"
  | .TFloat => "float"
  | .TString => "string"
  | .TTime => "time"

/-- Modelled from the spec: execute.ValueDataTypes (the execute package is
not under src) - the closed set of kinds a value column can take; the
compiler specializes once per value kind in this closed set. -/
def ValueDataTypes : List DataType :=
  [.TBool, .TInt, .TUInt, .TFloat, .TString]

/-- One cell of a block, tagged with its column type. -/
inductive Cell where
  | b (x : Bool)
  | i (x : Int)
  | u (x : Nat)
  | f (x : Float64)
  | s (x : String)
  | t (x : Time)
deriving Repr, DecidableEq

/-- execute.ColMeta: label, type and commonness of one column (isTag is
irrelevant to the audited paths). -/
structure ColMeta where
  label : String
  type : DataType
  isCommon : Bool
deriving Repr, DecidableEq

/-- A block as the filter transformation reads it: column metadata and
row-major rows whose cells are parallel to cols. -/
structure FBlock where
  cols : List ColMeta
  rows : List (List Cell)

/-- Modelled from the spec: execute.CompiledExpression (the execute package
is not under src).  A compiled expression has a result type and EvalBool
returns (bool, err) over a scope; a runtime evaluation error is the error
case. -/
structure CompiledExpression where
  type : DataType
  evalBool : List (String × Cell) → Except String Bool

/-- expressionOrError: the per-kind compilation outcome stored by
NewFilterTransformation. -/
structure ExpressionOrError where
  err : Option String
  expr : Option CompiledExpression

/-- The per-kind step of the compilation loop of NewFilterTransformation:
store the compiled expression and error as returned; a successful
compilation whose type is not boolean is replaced by the error: expression
does not evaluate to boolean. -/
def compileForType (compile : DataType → Except String CompiledExpression)
    (typ : DataType) : ExpressionOrError :=
  match compile typ with
  | .error e => { err := some e, expr := none }
  | .ok ce =>
    if ce.type ≠ .TBool then
      { err := some "expression does not evaluate to boolean", expr := none }
    else
      { err := none, expr := some ce }

/-- The filter transformation state that matters to processing: the
referenced properties of the arrow function and the compiled expression or
error per value data type. -/
structure FilterTransformation where
  properties : List String
  ces : DataType → ExpressionOrError

/-- NewFilterTransformation: reject arrow functions without exactly one
parameter, then pre-compile once per value data type.  Construction itself
never fails on a compilation error: the error is stored for Process. -/
def NewFilterTransformation (params : List String) (properties : List String)
    (compile : DataType → Except String CompiledExpression) :
    Except String FilterTransformation :=
  if params.length ≠ 1 then
    .error "filter functions should only have a single parameter"
  else
    .ok { properties := properties, ces := fun typ => compileForType compile typ }

/-- execute.ValueIdx: the index of the column labelled _value. -/
def ValueIdx (cols : List ColMeta) : Nat :=
  cols.findIdx (fun c => c.label = "_value")

/-- The scope prepared for one row: each referenced property is bound to the
cell of the column carrying its label (the _value property to the value
column).  Referenced properties are assumed to have matching columns, as in
the audited paths. -/
def scopeForRow (t : FilterTransformation) (cols : List ColMeta)
    (valueIdx : Nat) (row : List Cell) : List (String × Cell) :=
  t.properties.map (fun p =>
    (p, row.getD
      (if p = "_value" then valueIdx else cols.findIdx (fun c => c.label = p))
      (Cell.i 0)))

/-- The row loop of Process: evaluate the predicate on the scope of each
row; a false result or a runtime error (which is logged) skips the row; a
true result appends the row's cells to the builder, skipping common
columns. -/
def processRows (t : FilterTransformation) (ce : CompiledExpression)
    (cols : List ColMeta) (valueIdx : Nat) : List (List Cell) → List (List Cell)
  | [] => []
  | row :: rest =>
    match ce.evalBool (scopeForRow t cols valueIdx row) with
    | .ok true =>
      ((cols.zip row).filterMap
        (fun cv => if cv.1.isCommon then none else some cv.2))
        :: processRows t ce cols valueIdx rest
    | _ => processRows t ce cols valueIdx rest

/-- filterTransformation.Process on one block: look up the per-kind outcome
for the value column's type; a stored error is returned, wrapped, as the
fatal error of the block (and the dataset); otherwise the passing rows are
appended and nil is returned.  none models the Go panic when the block has
no value column (and the unreachable arm where neither an error nor an
expression was stored). -/
def FilterTransformation.Process (t : FilterTransformation) (b : FBlock) :
    Option (Except String (List (List Cell))) :=
  match b.cols.get? (ValueIdx b.cols) with
  | none => none
  | some valueCol =>
    match (t.ces valueCol.type).err, (t.ces valueCol.type).expr with
    | some e, _ =>
      some (.error ("expression does not support type "
        ++ valueCol.type.name ++ ": " ++ e))
    | none, some ce =>
      some (.ok (processRows t ce b.cols (ValueIdx b.cols) b.rows))
    | none, none => none

/-- C7: a per-kind compilation failure does not abort construction: the
transformation is built with the error stored, and Process returns the
fatal wrapped error the first time a block whose value column has that kind
arrives. -/
theorem filter_compile_error_deferred (properties : List String)
    (compile : DataType → Except String CompiledExpression)
    (typ : DataType) (e : String) (b : FBlock) (valueCol : ColMeta)
    (hcompile : compile typ = .error e)
    (hcol : b.cols.get? (ValueIdx b.cols) = some valueCol)
    (htyp : valueCol.type = typ) :
    ∃ t : FilterTransformation,
      NewFilterTransformation ["r"] properties compile = .ok t ∧
      FilterTransformation.Process t b =
        some (.error ("expression does not support type "
          ++ typ.name ++ ": " ++ e)) := by
  refine ⟨{ properties := properties,
            ces := fun ty => compileForType compile ty }, ?_, ?_⟩
  · simp [NewFilterTransformation]
  · have hces : compileForType compile typ =
        { err := some e, expr := none } := by
      unfold compileForType
      rw [hcompile]
    rw [List.get?_eq_getElem?] at hcol
    simp [FilterTransformation.Process, hcol, htyp, hces]

/-- C7 witness: a compile function failing on every kind, a string-typed
value column. -/
theorem filter_compile_error_deferred_witness :
    ∃ t : FilterTransformation,
      NewFilterTransformation ["r"] ["_value"]
        (fun _ => .error "unsupported") = .ok t ∧
      FilterTransformation.Process t
        ⟨[⟨"time", .TTime, false⟩, ⟨"_value", .TString, false⟩], []⟩ =
        some (.error "expression does not support type string: unsupported") :=
  filter_compile_error_deferred ["_value"] (fun _ => .error "unsupported")
    .TString "unsupported"
    ⟨[⟨"time", .TTime, false⟩, ⟨"_value", .TString, false⟩], []⟩
    ⟨"_value", .TString, false⟩ rfl rfl rfl

theorem processRows_eq_filter (t : FilterTransformation)
    (ce : CompiledExpression) (cols : List ColMeta) (valueIdx : Nat)
    (rows : List (List Cell)) :
    processRows t ce cols valueIdx rows =
      (rows.filter (fun row =>
        match ce.evalBool (scopeForRow t cols valueIdx row) with
        | .ok true => true
        | _ => false)).map
        (fun row => (cols.zip row).filterMap
          (fun cv => if cv.1.isCommon then none else some cv.2)) := by
  induction rows with
  | nil => rfl
  | cons r rest ih =>
    cases hres : ce.evalBool (scopeForRow t cols valueIdx r) with
    | error er => simp [processRows, hres, List.filter_cons, ih]
    | ok bv =>
      cases bv with
      | false => simp [processRows, hres, List.filter_cons, ih]
      | true => simp [processRows, hres, List.filter_cons, ih]

/-- C8: when a compiled expression exists for the value column's kind,
Process returns nil - a per-row false result or runtime error only skips
that row - and the builder receives exactly the rows whose predicate
evaluation returned true, each appended in full minus the common-tag
columns. -/
theorem filter_process_keeps_passing_rows (t : FilterTransformation)
    (ce : CompiledExpression) (b : FBlock) (valueCol : ColMeta)
    (hcol : b.cols.get? (ValueIdx b.cols) = some valueCol)
    (hces : t.ces valueCol.type = { err := none, expr := some ce }) :
    FilterTransformation.Process t b = some (.ok (
      (b.rows.filter (fun row =>
        match ce.evalBool (scopeForRow t b.cols (ValueIdx b.cols) row) with
        | .ok true => true
        | _ => false)).map
        (fun row => (b.cols.zip row).filterMap
          (fun cv => if cv.1.isCommon then none else some cv.2)))) := by
  rw [List.get?_eq_getElem?] at hcol
  simp [FilterTransformation.Process, hcol, hces, processRows_eq_filter]

/-- C8 witness: a constant-true predicate over a one-row block with one
common column; the row is appended minus the common column and Process
returns ok. -/
theorem filter_process_keeps_passing_rows_witness :
    FilterTransformation.Process
      ⟨[], fun _ => ⟨none, some ⟨.TBool, fun _ => .ok true⟩⟩⟩
      ⟨[⟨"time", .TTime, false⟩, ⟨"_value", .TFloat, false⟩,
        ⟨"t1", .TString, true⟩],
       [[Cell.t 3, Cell.f ⟨8⟩, Cell.s "a"]]⟩ =
      some (.ok [[Cell.t 3, Cell.f ⟨8⟩]]) := by
  have h := filter_process_keeps_passing_rows
    ⟨[], fun _ => ⟨none, some ⟨.TBool, fun _ => .ok true⟩⟩⟩
    ⟨.TBool, fun _ => .ok true⟩
    ⟨[⟨"time", .TTime, false⟩, ⟨"_value", .TFloat, false⟩,
      ⟨"t1", .TString, true⟩],
     [[Cell.t 3, Cell.f ⟨8⟩, Cell.s "a"]]⟩
    ⟨"_value", .TFloat, false⟩ rfl rfl
  rw [h]
  rfl

end FilterTransformation

section EvaluatorArgs

/-!
## Evaluator argument binding and array literals (src/ifql/eval.go)

createOp resolves the keyword-argument object, runs the registered
constructor with typed accessors that mark every requested name used, and
rejects the call when any provided property was left unread.  doArray infers
the element type of an array literal and builds the typed slice.
-/

/-- ifql.Type: the supported value types of the evaluator, TInvalid first as
in the source iota. -/
inductive VType where
  | TInvalid
  | TString
  | TInt
  | TFloat
  | TBool
  | TTime
  | TDuration
  | TArray
  | TMap
  | TChain
  | TExpression
deriving Repr, DecidableEq

/-- Type.String from the source; types outside the named cases print as
unknown type %d, and TInvalid is iota value 0. -/
def VType.typeName : VType → String
  | .TInvalid => "unknown type 0"
  | .TString => "string"
  | .TInt => "int"
  | .TFloat => "float"
  | .TBool => "bool"
  | .TTime => "time"
  | .TDuration => "duration"
  | .TArray => "list"
  | .TMap => "map"
  | .TChain => "chain"
  | .TExpression => "expression"

/-- The element loop of doArray: array.Type starts TInvalid, takes the type
of the first element, and every further element must agree with it. -/
def arrayElemType : VType → List VType → Except String VType
  | t, [] => .ok t
  | t, v :: rest =>
    let t1 := if t = .TInvalid then v else t
    if t1 ≠ v then
      .error ("cannot mix types in an array, found both "
        ++ t1.typeName ++ " and " ++ v.typeName)
    else arrayElemType t1 rest

/-- evaluator.doArray with the element sub-evaluations factored out: the
argument is the list of types of the already evaluated elements.  After the
loop, the switch on array.Type builds the typed slice for each concrete
type; its default branch - reached exactly when the type is still
TInvalid - errors with: cannot define an array with elements of type ...
The result is the element type of the produced TArray value. -/
def doArray (elementTypes : List VType) : Except String VType :=
  match arrayElemType .TInvalid elementTypes with
  | .error e => .error e
  | .ok t =>
    match t with
    | .TInvalid =>
      .error ("cannot define an array with elements of type " ++ t.typeName)
    | _ => .ok t

/-- C10: an array literal with zero elements leaves the inferred element
type at TInvalid, so doArray hits the default branch and returns the error
rather than an empty array value: an empty array literal can never be
evaluated successfully, although its zero elements trivially agree in
type. -/
theorem doArray_empty_errors :
    doArray [] =
      .error "cannot define an array with elements of type unknown type 0" := rfl

/-- The keyword arguments of one call: the resolved parameter map (an
association list; resolveParameters rejects duplicate keys) and the names
the constructor accessors marked used. -/
structure Arguments where
  params : List (String × VType)
  used : List String

/-- arguments.listUnused: every provided parameter no accessor asked for. -/
def listUnused (a : Arguments) : List String :=
  a.params.filterMap (fun p => if a.used.contains p.1 then none else some p.1)

/-- A registered operation constructor, abstracted to what createOp
observes of it: the argument names its typed accessors request (each get
marks the name used whether or not it is present) and its outcome. -/
structure OpCtor where
  reads : List String
  result : Except String Unit

/-- query.Operation: the id derived from the registered name and the fresh
counter (fmt.Sprintf %s%d is modelled as the pair). -/
structure Operation where
  name : String
  counter : Nat
deriving Repr, DecidableEq

/-- evaluator.createOp: build the op id from the name and the next counter,
run the registered constructor on the arguments, propagate its error, then
fail with: extra arguments provided: [...] when any provided parameter was
left unread; only otherwise is the operation produced. -/
def createOp (name : String) (ctor : OpCtor) (params : List (String × VType))
    (counter : Nat) : Except String Operation :=
  let args : Arguments := { params := params, used := ctor.reads }
  match ctor.result with
  | .error e => .error e
  | .ok _ =>
    match listUnused args with
    | [] => .ok { name := name, counter := counter }
    | u :: us => .error ("extra arguments provided: ["
        ++ String.intercalate "," (u :: us) ++ "]")

/-- C9: a keyword argument that the registered constructor never reads makes
createOp return the extra-arguments error naming the unused properties, and
no operation is produced. -/
theorem createOp_extra_arguments (name : String) (ctor : OpCtor)
    (params : List (String × VType)) (counter : Nat) (p : String) (t : VType)
    (hok : ctor.result = .ok ())
    (hmem : (p, t) ∈ params)
    (hunread : ctor.reads.contains p = false) :
    p ∈ listUnused { params := params, used := ctor.reads } ∧
    createOp name ctor params counter =
      .error ("extra arguments provided: ["
        ++ String.intercalate ","
          (listUnused { params := params, used := ctor.reads }) ++ "]") := by
  have hp : p ∈ listUnused { params := params, used := ctor.reads } := by
    unfold listUnused
    refine List.mem_filterMap.2 ⟨(p, t), hmem, ?_⟩
    simp [hunread]
    simpa using hunread
  refine ⟨hp, ?_⟩
  cases hu : listUnused { params := params, used := ctor.reads } with
  | nil =>
    rw [hu] at hp
    exact absurd hp (List.not_mem_nil p)
  | cons u us =>
    simp [createOp, hok, hu]

/-- C9 witness: the constructor reads only start; the provided stop is
unused, so the call fails with the extra-arguments error naming it. -/
theorem createOp_extra_arguments_witness :
    createOp "range" ⟨["start"], .ok ()⟩
      [("start", .TDuration), ("stop", .TTime)] 0 =
      .error "extra arguments provided: [stop]" := by
  have h := createOp_extra_arguments "range" ⟨["start"], .ok ()⟩
    [("start", .TDuration), ("stop", .TTime)] 0 "stop" .TTime rfl
    (by decide) (by decide)
  rw [h.2]
  rfl

end EvaluatorArgs

section PushDown

/-!
## Filter push-down (src/functions/filter.go, with the planner hooks)

FilterProcedureSpec.PushDown absorbs a filter into a from procedure.  When
the root already carries a filter, it calls dup, resets the copied filter
state on the duplicate and returns; the physical planner (plan/physical.go,
not under src) then applies the push-down to the fresh duplicate, which the
spec describes as absorbing into the copy and the branch tests pin down
(TestFilter_PushDown_Branch, TestLast_PushDown_Branch).
-/

/-- The arrow-function expression a filter pushes down, carried as data. -/
abbrev FilterExpr := String

/-- functions.FilterProcedureSpec: the filter procedure with its arrow
function F. -/
structure FilterProcedureSpec where
  F : FilterExpr
deriving Repr, DecidableEq

/-- The fields of functions.FromProcedureSpec that the filter push-down
reads and writes, plus Database to track what a deep copy carries along. -/
structure FromProcedureSpec where
  Database : String
  FilterSet : Bool
  Filter : Option FilterExpr
deriving Repr, DecidableEq

/-- plan.Procedure specialized to a from root: its id and its spec. -/
structure Procedure where
  id : String
  spec : FromProcedureSpec
deriving Repr, DecidableEq

/-- Modelled from the spec: plan.ProcedureIDForDuplicate (the plan package
is not under src) - the duplicate id is derived deterministically from the
original id by a fixed rule. -/
def ProcedureIDForDuplicate (id : String) : String := id ++ "/dup"

/-- Modelled from the spec: the dup callback handed to PushDown returns a
deep copy of the root subtree under the fresh derived id. -/
def dupOf (p : Procedure) : Procedure :=
  { p with id := ProcedureIDForDuplicate p.id }

/-- Outcome of one invocation of FilterProcedureSpec.PushDown, making the
mutation target explicit: either the given root was mutated in place, or
dup was called and only the duplicate was mutated. -/
inductive PushDownResult where
  | absorbed (root : Procedure)
  | duplicated (dup : Procedure)
deriving Repr, DecidableEq

/-- FilterProcedureSpec.PushDown, one invocation: when the root has already
absorbed a filter (FilterSet), dup is called, the copied filter state is
reset on the duplicate and the function returns - the duplicate carries no
filter yet; otherwise the root absorbs this filter (FilterSet true, Filter
F). -/
def FilterProcedureSpec.PushDown (s : FilterProcedureSpec)
    (root : Procedure) (dup : Procedure) : PushDownResult :=
  if root.spec.FilterSet then
    .duplicated
      { dup with spec := { dup.spec with FilterSet := false, Filter := none } }
  else
    .absorbed
      { root with spec :=
        { root.spec with FilterSet := true, Filter := some s.F } }

/-- Modelled from the spec: the physical planner applying one push-down to
its matched root (plan/physical.go is not under src).  Per spec section 4.2
the push-down absorbs into the fresh deep copy when the root has already
absorbed an incompatible push-down, leaving the original unchanged for the
other branch, and the branch tests expect the duplicate to end with the
later push-down absorbed: the planner re-applies PushDown to the freshly
reset duplicate.  Returns the root as left behind and the duplicate when
one was created. -/
def applyFilterPushDown (s : FilterProcedureSpec) (root : Procedure) :
    Procedure × Option Procedure :=
  match s.PushDown root (dupOf root) with
  | .absorbed r => (r, none)
  | .duplicated d =>
    match s.PushDown d (dupOf d) with
    | .absorbed d2 => (root, some d2)
    | .duplicated d2 => (root, some d2)

theorem dupID_ne (id : String) : ProcedureIDForDuplicate id ≠ id := by
  intro h
  have := congrArg String.length h
  simp [ProcedureIDForDuplicate] at this
  exact absurd this (by decide)

/-- C1: the first filter is absorbed into the clean root in place; a second,
incompatible filter makes PushDown call dup, and the push-down ends with the
deep copy (fresh derived id, other fields carried over) holding the second
filter, while the original root still holds the first filter unchanged for
the other branch. -/
theorem pushdown_duplicates_on_conflict (fA fB : FilterExpr) (r : Procedure)
    (hclean : r.spec.FilterSet = false) :
    ∃ r1 d : Procedure,
      applyFilterPushDown ⟨fA⟩ r = (r1, none) ∧
      r1.id = r.id ∧
      r1.spec.FilterSet = true ∧ r1.spec.Filter = some fA ∧
      applyFilterPushDown ⟨fB⟩ r1 = (r1, some d) ∧
      d.spec.FilterSet = true ∧ d.spec.Filter = some fB ∧
      d.id = ProcedureIDForDuplicate r1.id ∧ d.id ≠ r1.id ∧
      d.spec.Database = r.spec.Database := by
  refine ⟨{ r with spec :=
      { r.spec with FilterSet := true, Filter := some fA } },
    { id := ProcedureIDForDuplicate r.id,
      spec := { r.spec with FilterSet := true, Filter := some fB } },
    ?_, rfl, rfl, rfl, ?_, rfl, rfl, rfl, dupID_ne r.id, rfl⟩
  · simp [applyFilterPushDown, FilterProcedureSpec.PushDown, hclean]
  · simp [applyFilterPushDown, FilterProcedureSpec.PushDown, dupOf]

/-- C1 witness: the theorem applied to a clean concrete from procedure with
two concrete filters. -/
theorem pushdown_duplicates_on_conflict_witness :
    ∃ r1 d : Procedure,
      applyFilterPushDown ⟨"mA"⟩ ⟨"from", ⟨"mydb", false, none⟩⟩ = (r1, none) ∧
      r1.id = "from" ∧
      r1.spec.FilterSet = true ∧ r1.spec.Filter = some "mA" ∧
      applyFilterPushDown ⟨"mB"⟩ r1 = (r1, some d) ∧
      d.spec.FilterSet = true ∧ d.spec.Filter = some "mB" ∧
      d.id = ProcedureIDForDuplicate r1.id ∧ d.id ≠ r1.id ∧
      d.spec.Database = "mydb" :=
  pushdown_duplicates_on_conflict "mA" "mB" ⟨"from", ⟨"mydb", false, none⟩⟩ rfl

end PushDown

section ChainEvaluator

/-!
## Call-chain evaluation (src/ifql/eval.go)

The evaluator lowers a program to operations and edges.  Chain values
accumulate operations and edges; addChain drains them into the evaluator
and truncates the chain buffers, and both statement forms drain the chain
value they produce.  Assignment stores the value in the scope; a member call
on an identifier copies the chain struct out of the scope before extending
it.  Go slices are immutable lists here and the pointer shared between the
scope and addChain is reflected by storing the cleared chain in the scope.
-/

mutual
/-- The expression forms the chain fragment of doExpression handles:
identifier references and call expressions.  Literals, binary expressions
and the rest produce non-chain values and are orthogonal to chain
bookkeeping. -/
inductive EExpr where
  | ident (name : String)
  | call (c : CallExpr)

/-- ast.CallExpression: the callee is an identifier (a registered top-level
function) or a member expression (a registered method on a chain). -/
inductive CallExpr where
  | fn (name : String)
  | method (obj : MemberObj) (name : String)

/-- The object of a member expression: a nested call expression or an
identifier that must resolve to a chain in scope. -/
inductive MemberObj where
  | call (c : CallExpr)
  | ident (name : String)
end

/-- A program statement: one variable declaration or one expression
statement. -/
inductive Stmt where
  | varDecl (name : String) (init : EExpr)
  | exprStmt (e : EExpr)

/-- query.OperationID: fmt.Sprintf %s%d over the registered name and the
fresh counter, modelled as the pair. -/
structure OpID where
  name : String
  counter : Nat
deriving Repr, DecidableEq

/-- A query.Operation of the chain fragment, reduced to its identity (the
spec payload is settled with createOp separately). -/
structure QOp where
  id : OpID
deriving Repr, DecidableEq

/-- query.Edge: parent and child operation ids. -/
structure QEdge where
  parent : OpID
  child : OpID
deriving Repr, DecidableEq

/-- CallChain: the partial call chain value - the current tail (Parent) and
the accumulated operations and edges not yet drained into the spec. -/
structure CallChain where
  Parent : OpID
  Operations : List QOp
  Edges : List QEdge
deriving Repr, DecidableEq

/-- A value of the chain fragment: a chain, or any non-chain value (which
the fragment only ever checks the type of). -/
inductive EValue where
  | chain (c : CallChain)
  | other
deriving Repr, DecidableEq

/-- The evaluator state: the id counter, the scope, and the accumulated
operations and edges of the future QuerySpec. -/
structure EvalState where
  id : Nat
  scope : List (String × EValue)
  operations : List QOp
  edges : List QEdge
deriving Repr, DecidableEq

/-- scope.Get: the most recent binding of the name. -/
def scopeGet (sc : List (String × EValue)) (n : String) : Option EValue :=
  match sc.find? (fun p => p.1 = n) with
  | some p => some p.2
  | none => none

/-- scope.Set: bind the name, shadowing earlier bindings. -/
def scopeSet (sc : List (String × EValue)) (n : String) (v : EValue) :
    List (String × EValue) :=
  (n, v) :: sc

/-- evaluator.nextID plus the fresh operation made by createOp for a
registered name; the argument object is orthogonal to chain bookkeeping. -/
def newOp (st : EvalState) (name : String) : QOp × EvalState :=
  ({ id := { name := name, counter := st.id } }, { st with id := st.id + 1 })

mutual
/-- evaluator.callFunction: a call on an identifier callee starts a fresh
chain anchored on the new operation; a call on a member callee resolves the
object to a chain, creates the method operation, appends it and the edge
from the current tail and advances the tail.  (Additional parents declared
through the context do not occur in the chain fragment.) -/
def callFunction (fns mths : List String) (st : EvalState) :
    CallExpr → Except String (CallChain × EvalState)
  | .fn name =>
    if fns.contains name then
      let r := newOp st name
      .ok ({ Parent := r.1.id, Operations := [r.1], Edges := [] }, r.2)
    else
      .error ("unknown function " ++ name)
  | .method obj name => do
    let r ← memberFunction fns mths st obj
    if mths.contains name then
      let r2 := newOp r.2 name
      .ok ({ Parent := r2.1.id,
             Operations := r.1.Operations ++ [r2.1],
             Edges := r.1.Edges ++ [{ parent := r.1.Parent, child := r2.1.id }] },
           r2.2)
    else
      .error ("unknown method " ++ name)

/-- evaluator.memberFunction: a call object recurses; an identifier object
must resolve to a chain in scope, and the chain struct is copied so the
version stored in the scope is not mutated. -/
def memberFunction (fns mths : List String) (st : EvalState) :
    MemberObj → Except String (CallChain × EvalState)
  | .call c => callFunction fns mths st c
  | .ident n =>
    match scopeGet st.scope n with
    | none => .error ("undefined identifier " ++ n)
    | some .other => .error ("variable " ++ n ++ " is not a function chain")
    | some (.chain c) => .ok (c, st)
end

/-- evaluator.doExpression on the chain fragment: identifier lookup or call
chain construction. -/
def doExpression (fns mths : List String) (st : EvalState) :
    EExpr → Except String (EValue × EvalState)
  | .ident name =>
    match scopeGet st.scope name with
    | none => .error ("undefined identifier " ++ name)
    | some v => .ok (v, st)
  | .call c => do
    let r ← callFunction fns mths st c
    .ok (.chain r.1, r.2)

/-- evaluator.addChain: append the accumulated operations and edges of the
chain to the evaluator, then truncate the chain buffers to length zero
(chain.Operations[0:0] and chain.Edges[0:0]); the cleared chain is what any
holder of the same pointer sees afterwards. -/
def addChain (st : EvalState) (c : CallChain) : EvalState × CallChain :=
  ({ st with operations := st.operations ++ c.Operations,
             edges := st.edges ++ c.Edges },
   { c with Operations := [], Edges := [] })

/-- evaluator.doVariableDeclaration for one declaration: evaluate the
initializer, bind it, and drain a chain value into the evaluator; the scope
entry shares the chain pointer in the source, so after the drain it holds
the cleared chain. -/
def doVariableDeclaration (fns mths : List String) (st : EvalState)
    (name : String) (init : EExpr) : Except String EvalState := do
  let r ← doExpression fns mths st init
  match r.1 with
  | .chain c =>
    let d := addChain r.2 c
    .ok { d.1 with scope := scopeSet d.1.scope name (.chain d.2) }
  | v => .ok { r.2 with scope := scopeSet r.2.scope name v }

/-- One step of evaluator.eval: a variable declaration, or an expression
statement whose chain result is drained (a chain looked up from the scope
has empty buffers at statement boundaries, so clearing it again through the
shared pointer changes nothing). -/
def evalStmt (fns mths : List String) (st : EvalState) :
    Stmt → Except String EvalState
  | .varDecl name init => doVariableDeclaration fns mths st name init
  | .exprStmt e => do
    let r ← doExpression fns mths st e
    match r.1 with
    | .chain c => .ok (addChain r.2 c).1
    | _ => .ok r.2

/-- evaluator.eval over the statements of a program. -/
def evalProgram (fns mths : List String) :
    List Stmt → EvalState → Except String EvalState
  | [], st => .ok st
  | s :: rest, st => do
    let st1 ← evalStmt fns mths st s
    evalProgram fns mths rest st1

/-- The counters of the emitted operations (ids are name-counter pairs; the
counter alone identifies an operation). -/
def opsCounters (ops : List QOp) : List Nat :=
  ops.map (fun op => op.id.counter)

/-- Every chain value reachable from the scope has drained (empty)
buffers. -/
def ScopeChainsEmpty (sc : List (String × EValue)) : Prop :=
  ∀ p ∈ sc, ∀ c, p.2 = EValue.chain c → c.Operations = [] ∧ c.Edges = []

/-- The evaluator invariant: emitted operation counters are below the fresh
counter and pairwise distinct, and scope chains are drained. -/
def StateInv (st : EvalState) : Prop :=
  (∀ op ∈ st.operations, op.id.counter < st.id) ∧
  (opsCounters st.operations).Nodup ∧
  ScopeChainsEmpty st.scope

theorem scopeGet_chain_empty {sc : List (String × EValue)} {n : String}
    {c : CallChain} (hsc : ScopeChainsEmpty sc)
    (h : scopeGet sc n = some (.chain c)) :
    c.Operations = [] ∧ c.Edges = [] := by
  unfold scopeGet at h
  cases hf : sc.find? (fun p => p.1 = n) with
  | none => rw [hf] at h; simp at h
  | some p =>
    rw [hf] at h
    simp at h
    exact hsc p (List.mem_of_find?_eq_some hf) c h

mutual
theorem callFunction_spec (fns mths : List String) :
    ∀ (ce : CallExpr) (st : EvalState) (chain : CallChain) (st2 : EvalState),
      ScopeChainsEmpty st.scope →
      callFunction fns mths st ce = .ok (chain, st2) →
      st2.scope = st.scope ∧ st2.operations = st.operations ∧
      st2.edges = st.edges ∧ st.id ≤ st2.id ∧
      (∀ op ∈ chain.Operations,
        st.id ≤ op.id.counter ∧ op.id.counter < st2.id) ∧
      (opsCounters chain.Operations).Nodup
  | .fn name, st, chain, st2, hsc, h => by
    by_cases hc : name ∈ fns
    · simp [callFunction, hc, newOp] at h
      obtain ⟨h1, h2⟩ := h
      subst h1
      subst h2
      refine ⟨rfl, rfl, rfl, Nat.le_succ st.id, ?_, by simp [opsCounters]⟩
      intro op hop
      simp at hop
      subst hop
      simp
    · simp [callFunction, hc] at h
  | .method obj name, st, chain, st2, hsc, h => by
    cases hm : memberFunction fns mths st obj with
    | error e => simp [callFunction, hm, Bind.bind, Except.bind] at h
    | ok r =>
      have hms := memberFunction_spec fns mths obj st r.1 r.2 hsc
        (by rw [hm])
      obtain ⟨hsc2, hops2, hedg2, hle2, hin2, hnd2⟩ := hms
      by_cases hmn : name ∈ mths
      · simp [callFunction, hm, hmn, newOp, Bind.bind, Except.bind] at h
        obtain ⟨h1, h2⟩ := h
        subst h1
        subst h2
        refine ⟨hsc2, hops2, hedg2, le_trans hle2 (Nat.le_succ _), ?_, ?_⟩
        · intro op hop
          simp at hop
          rcases hop with hop | hop
          · have := hin2 op hop
            constructor
            · exact this.1
            · exact lt_trans this.2 (Nat.lt_succ_self _)
          · subst hop
            exact ⟨hle2, Nat.lt_succ_self _⟩
        · have hmap : opsCounters (r.1.Operations ++
              [{ id := { name := name, counter := r.2.id } }]) =
              opsCounters r.1.Operations ++ [r.2.id] := by
            simp [opsCounters]
          rw [hmap]
          refine List.nodup_append.2 ⟨hnd2, List.nodup_singleton _, ?_⟩
          intro a ha
          simp [opsCounters] at ha
          obtain ⟨op, hop, hcnt⟩ := ha
          have := (hin2 op hop).2
          simp
          omega
      · simp [callFunction, hm, hmn, Bind.bind, Except.bind] at h

theorem memberFunction_spec (fns mths : List String) :
    ∀ (mo : MemberObj) (st : EvalState) (chain : CallChain) (st2 : EvalState),
      ScopeChainsEmpty st.scope →
      memberFunction fns mths st mo = .ok (chain, st2) →
      st2.scope = st.scope ∧ st2.operations = st.operations ∧
      st2.edges = st.edges ∧ st.id ≤ st2.id ∧
      (∀ op ∈ chain.Operations,
        st.id ≤ op.id.counter ∧ op.id.counter < st2.id) ∧
      (opsCounters chain.Operations).Nodup
  | .call c, st, chain, st2, hsc, h =>
    callFunction_spec fns mths c st chain st2 hsc (by simpa [memberFunction] using h)
  | .ident n, st, chain, st2, hsc, h => by
    cases hg : scopeGet st.scope n with
    | none => simp [memberFunction, hg] at h
    | some v =>
      cases v with
      | other => simp [memberFunction, hg] at h
      | chain c =>
        simp [memberFunction, hg] at h
        obtain ⟨h1, h2⟩ := h
        subst h1
        subst h2
        have hempty := scopeGet_chain_empty hsc hg
        refine ⟨rfl, rfl, rfl, le_refl _, ?_, ?_⟩
        · intro op hop
          rw [hempty.1] at hop
          exact absurd hop (List.not_mem_nil op)
        · rw [hempty.1]
          simp [opsCounters]
end

theorem doExpression_spec (fns mths : List String) (e : EExpr)
    (st : EvalState) (v : EValue) (st2 : EvalState)
    (hsc : ScopeChainsEmpty st.scope)
    (h : doExpression fns mths st e = .ok (v, st2)) :
    st2.scope = st.scope ∧ st2.operations = st.operations ∧
    st2.edges = st.edges ∧ st.id ≤ st2.id ∧
    ∀ c, v = .chain c →
      (∀ op ∈ c.Operations,
        st.id ≤ op.id.counter ∧ op.id.counter < st2.id) ∧
      (opsCounters c.Operations).Nodup := by
  cases e with
  | ident name =>
    cases hg : scopeGet st.scope name with
    | none => simp [doExpression, hg] at h
    | some w =>
      simp [doExpression, hg] at h
      obtain ⟨h1, h2⟩ := h
      subst h1
      subst h2
      refine ⟨rfl, rfl, rfl, le_refl _, ?_⟩
      intro c hc
      subst hc
      have hempty := scopeGet_chain_empty hsc hg
      constructor
      · intro op hop
        rw [hempty.1] at hop
        exact absurd hop (List.not_mem_nil op)
      · rw [hempty.1]
        simp [opsCounters]
  | call ce =>
    cases hcf : callFunction fns mths st ce with
    | error e2 => simp [doExpression, hcf, Bind.bind, Except.bind] at h
    | ok r =>
      simp [doExpression, hcf, Bind.bind, Except.bind] at h
      obtain ⟨h1, h2⟩ := h
      subst h1
      subst h2
      have hcs := callFunction_spec fns mths ce st r.1 r.2 hsc (by rw [hcf])
      obtain ⟨hq1, hq2, hq3, hq4, hq5, hq6⟩ := hcs
      refine ⟨hq1, hq2, hq3, hq4, ?_⟩
      intro c hc
      simp at hc
      subst hc
      exact ⟨hq5, hq6⟩

theorem addChain_keeps_inv (st1 : EvalState) (c : CallChain) (lo : Nat)
    (hlo : lo ≤ st1.id)
    (hops : ∀ op ∈ st1.operations, op.id.counter < lo)
    (hnodup : (opsCounters st1.operations).Nodup)
    (hc : ∀ op ∈ c.Operations, lo ≤ op.id.counter ∧ op.id.counter < st1.id)
    (hcnodup : (opsCounters c.Operations).Nodup) :
    (addChain st1 c).1.id = st1.id ∧
    (addChain st1 c).1.scope = st1.scope ∧
    (∀ op ∈ (addChain st1 c).1.operations,
      op.id.counter < (addChain st1 c).1.id) ∧
    (opsCounters (addChain st1 c).1.operations).Nodup := by
  refine ⟨rfl, rfl, ?_, ?_⟩
  · intro op hop
    simp [addChain] at hop ⊢
    rcases hop with hop | hop
    · exact lt_of_lt_of_le (hops op hop) hlo
    · exact (hc op hop).2
  · have hmap : opsCounters (st1.operations ++ c.Operations) =
        opsCounters st1.operations ++ opsCounters c.Operations := by
      simp [opsCounters]
    simp only [addChain, hmap]
    refine List.nodup_append.2 ⟨hnodup, hcnodup, ?_⟩
    intro a ha hb
    simp [opsCounters] at ha hb
    obtain ⟨op1, hop1, hcnt1⟩ := ha
    obtain ⟨op2, hop2, hcnt2⟩ := hb
    have h1 := hops op1 hop1
    have h2 := (hc op2 hop2).1
    omega

theorem evalStmt_inv (fns mths : List String) (s : Stmt)
    (st st2 : EvalState) (hinv : StateInv st)
    (h : evalStmt fns mths st s = .ok st2) : StateInv st2 := by
  obtain ⟨hops, hnodup, hsc⟩ := hinv
  cases s with
  | varDecl name init =>
    cases hd : doExpression fns mths st init with
    | error e => simp [evalStmt, doVariableDeclaration, hd, Bind.bind, Except.bind] at h
    | ok r =>
      have hde := doExpression_spec fns mths init st r.1 r.2 hsc (by rw [hd])
      obtain ⟨he1, he2, he3, he4, he5⟩ := hde
      cases hv : r.1 with
      | chain c =>
        simp [evalStmt, doVariableDeclaration, hd, hv, Bind.bind, Except.bind] at h
        subst h
        have hcprops := he5 c hv
        have hkeep := addChain_keeps_inv r.2 c st.id he4
          (by rw [he2]; exact hops) (by rw [he2]; exact hnodup)
          hcprops.1 hcprops.2
        refine ⟨?_, ?_, ?_⟩
        · intro op hop
          exact hkeep.2.2.1 op hop
        · exact hkeep.2.2.2
        · intro p hp cc hcc
          simp [scopeSet] at hp
          rcases hp with hp | hp
          · subst hp
            simp [addChain] at hcc
            rw [← hcc]
            exact ⟨rfl, rfl⟩
          · have : p ∈ st.scope := by
              rw [← he1]
              rw [hkeep.2.1] at hp
              exact hp
            exact hsc p this cc hcc
      | other =>
        simp [evalStmt, doVariableDeclaration, hd, hv, Bind.bind, Except.bind] at h
        subst h
        refine ⟨?_, ?_, ?_⟩
        · intro op hop
          rw [he2] at hop
          exact lt_of_lt_of_le (hops op hop) he4
        · rw [he2]
          exact hnodup
        · intro p hp cc hcc
          simp [scopeSet] at hp
          rcases hp with hp | hp
          · subst hp
            simp at hcc
          · have : p ∈ st.scope := by
              rw [← he1]
              exact hp
            exact hsc p this cc hcc
  | exprStmt e =>
    cases hd : doExpression fns mths st e with
    | error e2 => simp [evalStmt, hd, Bind.bind, Except.bind] at h
    | ok r =>
      have hde := doExpression_spec fns mths e st r.1 r.2 hsc (by rw [hd])
      obtain ⟨he1, he2, he3, he4, he5⟩ := hde
      cases hv : r.1 with
      | chain c =>
        simp [evalStmt, hd, hv, Bind.bind, Except.bind] at h
        subst h
        have hcprops := he5 c hv
        have hkeep := addChain_keeps_inv r.2 c st.id he4
          (by rw [he2]; exact hops) (by rw [he2]; exact hnodup)
          hcprops.1 hcprops.2
        refine ⟨?_, ?_, ?_⟩
        · intro op hop
          exact hkeep.2.2.1 op hop
        · exact hkeep.2.2.2
        · intro p hp cc hcc
          rw [hkeep.2.1, he1] at hp
          exact hsc p hp cc hcc
      | other =>
        simp [evalStmt, hd, hv, Bind.bind, Except.bind] at h
        subst h
        refine ⟨?_, ?_, ?_⟩
        · intro op hop
          rw [he2] at hop
          exact lt_of_lt_of_le (hops op hop) he4
        · rw [he2]
          exact hnodup
        · intro p hp cc hcc
          rw [he1] at hp
          exact hsc p hp cc hcc

theorem evalProgram_inv (fns mths : List String) (prog : List Stmt) :
    ∀ st st2, StateInv st →
      evalProgram fns mths prog st = .ok st2 → StateInv st2 := by
  induction prog with
  | nil =>
    intro st st2 hinv h
    simp [evalProgram] at h
    subst h
    exact hinv
  | cons s rest ih =>
    intro st st2 hinv h
    cases hs : evalStmt fns mths st s with
    | error e => simp [evalProgram, hs, Bind.bind, Except.bind] at h
    | ok st1 =>
      simp [evalProgram, hs, Bind.bind, Except.bind] at h
      exact ih st1 st2 (evalStmt_inv fns mths s st st1 hinv hs) h

/-- C5: chain buffers are drained into the query spec exactly once.
Draining (addChain) empties the Operations and Edges buffers of the chain,
so draining the same value again appends nothing, and for every program of
the chain fragment that evaluates successfully, no operation occurs twice
in the emitted QuerySpec.Operations. -/
theorem chains_drained_once (fns mths : List String) (prog : List Stmt)
    (st2 : EvalState)
    (h : evalProgram fns mths prog
      { id := 0, scope := [], operations := [], edges := [] } = .ok st2) :
    (opsCounters st2.operations).Nodup ∧
    (∀ (st : EvalState) (c : CallChain),
      (addChain st c).2.Operations = [] ∧
      (addChain st c).2.Edges = [] ∧
      addChain (addChain st c).1 (addChain st c).2 =
        ((addChain st c).1, (addChain st c).2)) := by
  constructor
  · have hinit : StateInv { id := 0, scope := [], operations := [], edges := [] } := by
      refine ⟨?_, ?_, ?_⟩
      · intro op hop
        exact absurd hop (List.not_mem_nil op)
      · simp [opsCounters]
      · intro p hp cc hcc
        exact absurd hp (List.not_mem_nil p)
    exact (evalProgram_inv fns mths prog _ st2 hinit h).2.1
  · intro st c
    simp [addChain]

/-- C5 witness: the theorem applied to the concrete program
t = from(); t.range(); t.last() - the shared chain value t is used three
times, yet each of the three operations is emitted exactly once. -/
theorem chains_drained_once_witness :
    (opsCounters (EvalState.mk 3
      [("t", EValue.chain ⟨⟨"from", 0⟩, [], []⟩)]
      [⟨⟨"from", 0⟩⟩, ⟨⟨"range", 1⟩⟩, ⟨⟨"last", 2⟩⟩]
      [⟨⟨"from", 0⟩, ⟨"range", 1⟩⟩,
       ⟨⟨"from", 0⟩, ⟨"last", 2⟩⟩]).operations).Nodup :=
  (chains_drained_once ["from"] ["range", "last"]
    [.varDecl "t" (.call (.fn "from")),
     .exprStmt (.call (.method (.ident "t") "range")),
     .exprStmt (.call (.method (.ident "t") "last"))]
    _ rfl).1

end ChainEvaluator

end IFQL
